import Mathlib

/-!
# Verification model of `count_min_sketch.py`

A shallow embedding of the `CountMinSketch` class (and its
`CountMinSketchUsingEpsAndDelta` subclass) from `src/count_min_sketch.py`,
together with proofs settling the specification claims about it.

Modelling conventions:

* Python exceptions are `Except PyErr`; each constructor of `PyErr` names the
  Python exception class that the corresponding code path raises.
* Python `int` is `Int` (arbitrary precision).  The counter rows are
  `array.array('l', ...)`; an increment out of C-long range raises
  `OverflowError` rather than wrapping, so counters never wrap and unbounded
  `Int` counters are faithful for every operation that completes.
* The MD5-based `_hash` generator is deterministic for a fixed item: the byte
  digest obtained after mixing in row index `r` is a fixed natural number.
  We therefore parameterise the development by an arbitrary digest function
  `H : Item → Nat → Nat` (`H item r` is `int(md5.hexdigest(), 16)` at row `r`)
  and reduce it modulo the width exactly as the source does.  All theorems are
  universally quantified over `H`, so they hold in particular for the real
  MD5 digest.
* `heapq` maintains a Python list with the heap invariant; the class observes
  the heap only through `heap[0]` (its minimum), `heappush`, `heappushpop`
  and `heapify`, never through the internal array layout.  We realise the
  heapq contract by keeping the list sorted by the same lexicographic
  order `[estimate, item]` that Python's list comparison uses, so `heap[0]`
  is exactly the element `heapq` exposes as the root, and push / pushpop /
  heapify preserve exactly the multiset of entries.
* `self._top_k` is a `dict` mapping an item to the (shared, mutable) pair
  `[estimate, item]`; we model it as an association list `item ↦ estimate`
  in insertion order (Python dicts preserve insertion order), mirroring the
  pair aliasing by updating the heap entry and the dict value together,
  exactly as the in-place pair mutation does.
-/

namespace CmsSpec

/-- Python exception classes raised by code paths of `count_min_sketch.py`. -/
inductive PyErr where
  | valueError
  | indexError
  | keyError
  | typeError
  | zeroDivisionError
  deriving DecidableEq, Repr

/-- `Except.isOk`: does a Python call return normally (no exception)? -/
def exceptOk {ε α : Type} : Except ε α → Bool
  | .ok _ => true
  | .error _ => false

/-- Python sequence index normalisation: a negative index counts from the
end of a sequence of length `len`. -/
def normIdx (len : Nat) (idx : Int) : Int :=
  if idx < 0 then idx + (len : Int) else idx

/-- Python sequence read `row[idx]`: out of range raises `IndexError`. -/
def pyGet (row : List Int) (idx : Int) : Except PyErr Int :=
  if 0 ≤ normIdx row.length idx ∧ normIdx row.length idx < (row.length : Int) then
    .ok (row.getD (normIdx row.length idx).toNat 0)
  else .error .indexError

/-- Python `row[idx] += count`: same index normalisation as `pyGet`. -/
def pySetAdd (row : List Int) (idx count : Int) : Except PyErr (List Int) :=
  if 0 ≤ normIdx row.length idx ∧ normIdx row.length idx < (row.length : Int) then
    .ok (row.set (normIdx row.length idx).toNat
      (row.getD (normIdx row.length idx).toNat 0 + count))
  else .error .indexError

/-- The loop `for table, idx in zip(self._tables, self._hash(item)):
table[idx] += count` (zip stops at the shorter sequence). -/
def bumpRows (count : Int) : List (List Int) → List Int → Except PyErr (List (List Int))
  | rows, [] => .ok rows
  | [], _ => .ok []
  | row :: rows, idx :: idxs => do
      let row' ← pySetAdd row idx count
      let rest ← bumpRows count rows idxs
      pure (row' :: rest)

/-- The reads `table[idx] for table, idx in zip(self._tables, self._hash(item))`. -/
def readCells : List (List Int) → List Int → Except PyErr (List Int)
  | _, [] => .ok []
  | [], _ :: _ => .ok []
  | row :: rows, idx :: idxs => do
      let v ← pyGet row idx
      let rest ← readCells rows idxs
      pure (v :: rest)

/-- Python's lexicographic comparison `[e1, i1] <= [e2, i2]` on the heap's
`[estimate, item]` pairs (estimate first, then the item breaks ties). -/
def pairLe {Item : Type} [LinearOrder Item] (p q : Int × Item) : Prop :=
  p.1 < q.1 ∨ (p.1 = q.1 ∧ p.2 ≤ q.2)

/-- Python's strict lexicographic comparison `[e1, i1] < [e2, i2]`. -/
def pairLt {Item : Type} [LinearOrder Item] (p q : Int × Item) : Prop :=
  p.1 < q.1 ∨ (p.1 = q.1 ∧ p.2 < q.2)

instance {Item : Type} [LinearOrder Item] :
    DecidableRel (@pairLe Item _) := fun p q => by
  unfold pairLe; infer_instance

instance {Item : Type} [LinearOrder Item] :
    DecidableRel (@pairLt Item _) := fun p q => by
  unfold pairLt; infer_instance

instance {Item : Type} [LinearOrder Item] :
    IsTotal (Int × Item) (@pairLe Item _) where
  total p q := by
    rcases lt_trichotomy p.1 q.1 with h | h | h
    · exact Or.inl (Or.inl h)
    · rcases le_total p.2 q.2 with h2 | h2
      · exact Or.inl (Or.inr ⟨h, h2⟩)
      · exact Or.inr (Or.inr ⟨h.symm, h2⟩)
    · exact Or.inr (Or.inl h)

instance {Item : Type} [LinearOrder Item] :
    IsTrans (Int × Item) (@pairLe Item _) where
  trans p q r hpq hqr := by
    rcases hpq with h1 | ⟨e1, i1⟩
    · rcases hqr with h2 | ⟨e2, _⟩
      · exact Or.inl (h1.trans h2)
      · exact Or.inl (e2 ▸ h1)
    · rcases hqr with h2 | ⟨e2, i2⟩
      · exact Or.inl (e1 ▸ h2)
      · exact Or.inr ⟨e1.trans e2, i1.trans i2⟩

/-- `heapq.heappushpop(heap, pair)`: if the heap is non-empty and its root
compares (lexicographically) below the new pair, pop the root and insert the
pair; otherwise return the pair and leave the heap alone.  Returns
`(popped element, new heap)`. -/
def heappushpop {Item : Type} [LinearOrder Item]
    (heap : List (Int × Item)) (pair : Int × Item) :
    (Int × Item) × List (Int × Item) :=
  match heap with
  | [] => (pair, heap)
  | m :: rest =>
      if pairLt m pair then (m, List.orderedInsert pairLe pair rest)
      else (pair, heap)

/-- `dict` lookup `top_k[item]` (as an option). -/
def lookupA {Item : Type} [DecidableEq Item] :
    List (Item × Int) → Item → Option Int
  | [], _ => none
  | (i, v) :: t, x => if i = x then some v else lookupA t x

/-- `top_k[item][0] = estimate` for a key already present: overwrite the
stored estimate in place (dict order is unchanged). -/
def setAssoc {Item : Type} [DecidableEq Item] :
    List (Item × Int) → Item → Int → List (Item × Int)
  | [], _, _ => []
  | (i, v) :: t, x, e => if i = x then (i, e) :: t else (i, v) :: setAssoc t x e

/-- `top_k.pop(item)`: drop the entry for `item` (no-op here if absent;
the caller models the `KeyError` separately). -/
def eraseKey {Item : Type} [DecidableEq Item] :
    List (Item × Int) → Item → List (Item × Int)
  | [], _ => []
  | (i, v) :: t, x => if i = x then t else (i, v) :: eraseKey t x

/-- The state of a `CountMinSketch` instance: fields `_w`, `_d`, `_k`, `_n`,
`_heap`, `_top_k`, `_tables` of the Python object.  (`_eps` and `_delta` are
floats touched by no claim and are omitted.) -/
structure CountMinSketch (Item : Type) where
  w : Int
  d : Int
  k : Int
  n : Int
  heap : List (Int × Item)
  topk : List (Item × Int)
  tables : List (List Int)

namespace CountMinSketch

variable {Item : Type} [LinearOrder Item]

/-- `CountMinSketch.__init__(w, d, k=10)`: Python checks `if not w or not d`,
i.e. it raises `ValueError` exactly when `w == 0` or `d == 0` (an `int` is
falsy iff it is zero); negative dimensions pass the check.  The table is
`d` rows (`range(d)`, empty for `d ≤ 0`) of `w` zeros (`range(w)`, empty for
`w ≤ 0`). -/
def init (w d k : Int) : Except PyErr (CountMinSketch Item) :=
  if w = 0 ∨ d = 0 then .error .valueError
  else .ok
    { w := w, d := d, k := k, n := 0, heap := [], topk := [],
      tables := (List.range d.toNat).map fun _ => List.replicate w.toNat 0 }

variable (H : Item → Nat → Nat)

/-- `_hash(item)`: the MD5 digest for row `r` (see module docstring) reduced
by Python's `%` (`Int.fmod`, the remainder with the divisor's sign), one
index per row of `range(self._d)`. -/
def hashIdxs (s : CountMinSketch Item) (item : Item) : List Int :=
  (List.range s.d.toNat).map fun r => Int.fmod (H item r : Int) s.w

/-- `estimate(item)`: `min(table[idx] for table, idx in zip(...))`;
`min` of an empty sequence raises `ValueError`. -/
def estimate (s : CountMinSketch Item) (item : Item) : Except PyErr Int := do
  let vals ← readCells s.tables (hashIdxs H s item)
  match vals with
  | [] => .error .valueError
  | v :: vs => pure (vs.foldl min v)

/-- `_update_heap(item)`: maintain the heavy-hitter heap and the `top_k`
reverse index, exactly following the four branches of the source. -/
def updateHeap (s : CountMinSketch Item) (item : Item) :
    Except PyErr (CountMinSketch Item) := do
  let est ← estimate H s item
  match lookupA s.topk item with
  | some _ =>
      -- `top_k[item][0] = estimate` mutates the pair aliased into the heap;
      -- `heapq.heapify(heap)` then restores heap order.
      pure { s with
        heap := List.insertionSort pairLe
          (s.heap.map fun p => if p.2 = item then (est, item) else p),
        topk := setAssoc s.topk item est }
  | none =>
      if (s.heap.length : Int) < s.k then
        -- `heapq.heappush(heap, pair)` and `top_k[item] = pair`
        pure { s with
          heap := List.orderedInsert pairLe (est, item) s.heap,
          topk := s.topk ++ [(item, est)] }
      else
        match s.heap with
        | [] => .error .indexError   -- `heap[0]` on an empty heap
        | m :: _ =>
            if est ≤ m.1 then pure s
            else
              -- `rmv_estimate, rmv_item = heapq.heappushpop(heap, pair)`:
              -- the popped pair is `(heappushpop ...).1`, the new heap
              -- `(heappushpop ...).2`; then `top_k.pop(rmv_item)` and
              -- `top_k[item] = pair`.
              match lookupA s.topk (heappushpop s.heap (est, item)).1.2 with
              | none => .error .keyError  -- `top_k.pop(rmv_item)` missing key
              | some _ =>
                  pure { s with
                    heap := (heappushpop s.heap (est, item)).2,
                    topk := eraseKey s.topk (heappushpop s.heap (est, item)).1.2
                      ++ [(item, est)] }

/-- `update(item, count=1)`: reject a negative count with `ValueError`
before any mutation, then add `count` to the total and to one counter per
row, then run the heavy-hitter maintenance. -/
def update (s : CountMinSketch Item) (item : Item) (count : Int) :
    Except PyErr (CountMinSketch Item) :=
  if count < 0 then .error .valueError
  else do
    let tables' ← bumpRows count s.tables (hashIdxs H s item)
    updateHeap H { s with n := s.n + count, tables := tables' } item

/-- `heavyHitters()`: `copy.deepcopy(self._top_k)` — the same item→estimate
pairs as the tracker, as a fresh structure.  (The deep copy is an aliasing
guarantee; values are identical.) -/
def heavyHitters (s : CountMinSketch Item) : List (Item × Int) :=
  s.topk

/-- `totalCount()`. -/
def totalCount (s : CountMinSketch Item) : Int :=
  s.n

/-- `merge(count_min_sketch)`: the body is
`raise NotImplemented('Method has not yet been implemented')`.
`NotImplemented` is the non-callable singleton (not the exception class
`NotImplementedError`), so evaluating `NotImplemented(...)` raises
`TypeError: 'NotImplementedType' object is not callable` before the `raise`
statement can fire.  Every call therefore raises `TypeError`. -/
def merge (_s _other : CountMinSketch Item) : Except PyErr (CountMinSketch Item) :=
  .error .typeError

/-- A sequence of `update` calls, threading the state. -/
def runUpdates (s : CountMinSketch Item) :
    List (Item × Int) → Except PyErr (CountMinSketch Item)
  | [] => .ok s
  | (i, c) :: rest => do
      let s' ← update H s i c
      runUpdates s' rest

/-- The true cumulative weight applied to `x` by a sequence of updates. -/
def trueFreq (x : Item) : List (Item × Int) → Int
  | [] => 0
  | (i, c) :: rest => (if i = x then c else 0) + trueFreq x rest

end CountMinSketch

/-- `CountMinSketchUsingEpsAndDelta.__init__(eps, delta)`:
`w = int(math.ceil(1 / eps))` is computed first (raising
`ZeroDivisionError` when `eps == 0`); the next statement
`d = int(math.ceil(math.log(1 - delta, base=0.5)))` then raises
`TypeError: math.log() takes no keyword arguments` unconditionally, because
CPython's `math.log` accepts only positional arguments.  The delegation to
`CountMinSketch.__init__` is never reached, so no sketch is ever produced.
The arguments are floats; they are modelled as rationals, which is harmless
here because the outcome does not depend on their values beyond `eps == 0`. -/
def initUsingEpsAndDelta (Item : Type) (eps delta : ℚ) :
    Except PyErr (CountMinSketch Item) :=
  if eps = 0 then .error .zeroDivisionError
  else
    -- w = int(math.ceil(1 / eps)) succeeds; its value is immediately dead:
    -- the `math.log(1 - delta, base=0.5)` call on the next line raises.
    .error .typeError

/-- The heap pair `[estimate, item]` aliased by a `top_k` entry
`(item, estimate)`. -/
def flipP {Item : Type} (e : Item × Int) : Int × Item :=
  (e.2, e.1)

/-- Internal consistency of the heavy-hitter tracker: the heap is in heap
order (here: sorted by Python's pair comparison), the reverse index has no
duplicate keys, the heap holds exactly the pairs stored in the reverse
index, and the tracker size never exceeds the capacity. -/
def TrackInv {Item : Type} [LinearOrder Item] (s : CountMinSketch Item) : Prop :=
  List.Sorted pairLe s.heap ∧
  (s.topk.map Prod.fst).Nodup ∧
  List.Perm s.heap (s.topk.map flipP) ∧
  s.topk.length ≤ s.k.toNat

/-- A concrete digest function standing in for the MD5 digests in concrete
instantiations (any function works; theorems hold for all of them). -/
def H0 : Nat → Nat → Nat :=
  fun i r => i + r

/-! ## Basic lemmas about the embedded primitives -/

theorem exceptBind_ok {ε α β : Type} {x : Except ε α} {f : α → Except ε β} {b : β} :
    (x >>= f) = .ok b ↔ ∃ a, x = .ok a ∧ f a = .ok b := by
  cases x <;> simp [Bind.bind, Except.bind]

theorem pyGet_ok_cond {row : List Int} {j v : Int} (h : pyGet row j = .ok v) :
    0 ≤ normIdx row.length j ∧ normIdx row.length j < (row.length : Int) := by
  unfold pyGet at h
  split at h
  · assumption
  · exact absurd h (by simp)

theorem pyGet_ok_of_length {row row' : List Int} (hlen : row'.length = row.length)
    {j v : Int} (h : pyGet row j = .ok v) : ∃ v', pyGet row' j = .ok v' := by
  have hc := pyGet_ok_cond h
  refine ⟨row'.getD (normIdx row'.length j).toNat 0, ?_⟩
  unfold pyGet
  rw [hlen] at *
  exact if_pos hc

theorem pySetAdd_ok_elim {row row' : List Int} {i c : Int}
    (h : pySetAdd row i c = .ok row') :
    0 ≤ normIdx row.length i ∧ normIdx row.length i < (row.length : Int) ∧
      row' = row.set (normIdx row.length i).toNat
        (row.getD (normIdx row.length i).toNat 0 + c) := by
  unfold pySetAdd at h
  split at h
  · next hcond => exact ⟨hcond.1, hcond.2, by injection h with h; exact h.symm⟩
  · exact absurd h (by simp)

theorem pySetAdd_length {row row' : List Int} {i c : Int}
    (h : pySetAdd row i c = .ok row') : row'.length = row.length := by
  obtain ⟨-, -, rfl⟩ := pySetAdd_ok_elim h
  exact List.length_set ..

theorem getD_set_self (l : List Int) (n : Nat) (a d : Int) (h : n < l.length) :
    (l.set n a).getD n d = a := by
  rw [List.getD_eq_getElem _ _ (by simpa using h)]
  simp

theorem getD_set_of_ne (l : List Int) {m n : Nat} (hmn : m ≠ n) (a d : Int)
    (h : n < l.length) : (l.set m a).getD n d = l.getD n d := by
  rw [List.getD_eq_getElem _ _ (by simpa using h), List.getD_eq_getElem _ _ h]
  exact List.getElem_set_of_ne hmn a _

theorem pyGet_pySetAdd {row row' : List Int} {i c : Int}
    (hset : pySetAdd row i c = .ok row') {j v : Int}
    (hget : pyGet row j = .ok v) :
    pyGet row' j = .ok
      (if normIdx row.length i = normIdx row.length j then v + c else v) := by
  obtain ⟨hi0, hil, rfl⟩ := pySetAdd_ok_elim hset
  have hj := pyGet_ok_cond hget
  have hv : v = row.getD (normIdx row.length j).toNat 0 := by
    unfold pyGet at hget
    rw [if_pos hj] at hget
    injection hget with hget
    exact hget.symm
  have hlen : (row.set (normIdx row.length i).toNat
      (row.getD (normIdx row.length i).toNat 0 + c)).length = row.length :=
    List.length_set ..
  unfold pyGet
  rw [hlen, if_pos hj]
  have hjlt : (normIdx row.length j).toNat < row.length := by omega
  by_cases hij : normIdx row.length i = normIdx row.length j
  · rw [if_pos hij, hij, getD_set_self _ _ _ _ hjlt, hv]
  · have hne : (normIdx row.length i).toNat ≠ (normIdx row.length j).toNat := by omega
    rw [if_neg hij, getD_set_of_ne _ hne _ _ hjlt, hv]

theorem bumpRows_shape {c : Int} {rows : List (List Int)} {idxs : List Int}
    {rows' : List (List Int)} (h : bumpRows c rows idxs = .ok rows') :
    List.Forall₂ (fun (r r' : List Int) => r.length = r'.length) rows rows' := by
  induction rows generalizing idxs rows' with
  | nil =>
    cases idxs <;> unfold bumpRows at h <;> injection h with h <;> subst h <;> exact .nil
  | cons row rows ih =>
    cases idxs with
    | nil =>
      unfold bumpRows at h
      injection h with h
      subst h
      exact List.forall₂_same.2 fun _ _ => rfl
    | cons idx idxs =>
      unfold bumpRows at h
      rw [exceptBind_ok] at h
      obtain ⟨row', hrow, h⟩ := h
      rw [exceptBind_ok] at h
      obtain ⟨rest, hrest, h⟩ := h
      simp only [pure, Except.pure, Except.ok.injEq] at h
      subst h
      exact .cons (pySetAdd_length hrow).symm (ih hrest)

theorem readCells_transfer {rows rows' : List (List Int)}
    (hshape : List.Forall₂ (fun (r r' : List Int) => r.length = r'.length) rows rows')
    {idxs : List Int} {vs : List Int} (h : readCells rows idxs = .ok vs) :
    ∃ vs', readCells rows' idxs = .ok vs' := by
  induction hshape generalizing idxs vs with
  | nil =>
    cases idxs <;> exact ⟨vs, h⟩
  | @cons row row' rows rows' hlen hrest ih =>
    cases idxs with
    | nil => exact ⟨[], rfl⟩
    | cons idx idxs =>
      unfold readCells at h
      rw [exceptBind_ok] at h
      obtain ⟨v, hv, h⟩ := h
      rw [exceptBind_ok] at h
      obtain ⟨rest, hrestv, -⟩ := h
      obtain ⟨v', hv'⟩ := pyGet_ok_of_length hlen.symm hv
      obtain ⟨vs', hvs'⟩ := ih hrestv
      refine ⟨v' :: vs', ?_⟩
      unfold readCells
      rw [exceptBind_ok]
      refine ⟨v', hv', ?_⟩
      rw [exceptBind_ok]
      exact ⟨vs', hvs', rfl⟩

theorem readCells_aligned_rel {rel : Int → Int → Prop} {c : Int}
    (hrel : ∀ {row row' : List Int} {idx v v' : Int},
      pySetAdd row idx c = .ok row' → pyGet row idx = .ok v →
      pyGet row' idx = .ok v' → rel v v')
    {rows : List (List Int)} {idxs : List Int} {rows' : List (List Int)}
    (hb : bumpRows c rows idxs = .ok rows') {vs vs' : List Int}
    (hr : readCells rows idxs = .ok vs) (hr' : readCells rows' idxs = .ok vs') :
    List.Forall₂ rel vs vs' := by
  induction rows generalizing idxs rows' vs vs' with
  | nil =>
    cases idxs with
    | nil =>
      unfold bumpRows at hb
      injection hb with hb
      subst hb
      unfold readCells at hr hr'
      injection hr with hr
      injection hr' with hr'
      subst hr; subst hr'
      exact .nil
    | cons idx idxs =>
      unfold bumpRows at hb
      injection hb with hb
      subst hb
      unfold readCells at hr hr'
      injection hr with hr
      injection hr' with hr'
      subst hr; subst hr'
      exact .nil
  | cons row rows ih =>
    cases idxs with
    | nil =>
      unfold bumpRows at hb
      injection hb with hb
      subst hb
      unfold readCells at hr hr'
      injection hr with hr
      injection hr' with hr'
      subst hr; subst hr'
      exact .nil
    | cons idx idxs =>
      unfold bumpRows at hb
      rw [exceptBind_ok] at hb
      obtain ⟨row', hrow, hb⟩ := hb
      rw [exceptBind_ok] at hb
      obtain ⟨rest', hrest', hb⟩ := hb
      simp only [pure, Except.pure, Except.ok.injEq] at hb
      subst hb
      unfold readCells at hr hr'
      rw [exceptBind_ok] at hr hr'
      obtain ⟨v, hv, hr⟩ := hr
      obtain ⟨v', hv', hr'⟩ := hr'
      rw [exceptBind_ok] at hr hr'
      obtain ⟨restv, hrestv, hr⟩ := hr
      obtain ⟨restv', hrestv', hr'⟩ := hr'
      simp only [pure, Except.pure, Except.ok.injEq] at hr hr'
      subst hr; subst hr'
      exact .cons (hrel hrow hv hv') (ih hrest' hrestv hrestv')

/-- Reading the same cells (same index list) after `bumpRows` with that index
list sees exactly `+ c` in every position. -/
theorem bump_read_same {c : Int} {rows : List (List Int)} {idxs : List Int}
    {rows' : List (List Int)} (hb : bumpRows c rows idxs = .ok rows')
    {vs vs' : List Int} (hr : readCells rows idxs = .ok vs)
    (hr' : readCells rows' idxs = .ok vs') :
    List.Forall₂ (fun a b => b = a + c) vs vs' := by
  refine readCells_aligned_rel ?_ hb hr hr'
  intro row row' idx v v' hset hget hget'
  have := pyGet_pySetAdd hset hget
  rw [if_pos rfl] at this
  rw [this] at hget'
  injection hget' with hget'
  exact hget'.symm

/-- Reading any cells after `bumpRows` with a possibly different index list
sees pointwise no smaller values, provided the increment is non-negative. -/
theorem bump_read_mono {c : Int} (hc : 0 ≤ c) {rows : List (List Int)}
    {idxsI : List Int} {rows' : List (List Int)}
    (hb : bumpRows c rows idxsI = .ok rows') {idxsX : List Int} {vs vs' : List Int}
    (hr : readCells rows idxsX = .ok vs) (hr' : readCells rows' idxsX = .ok vs') :
    List.Forall₂ (· ≤ ·) vs vs' := by
  induction rows generalizing idxsI rows' idxsX vs vs' with
  | nil =>
    have hrows' : rows' = [] := by
      cases idxsI <;> unfold bumpRows at hb <;> injection hb with hb <;> exact hb.symm
    subst hrows'
    cases idxsX <;> unfold readCells at hr hr' <;> injection hr with hr <;>
      injection hr' with hr' <;> subst hr <;> subst hr' <;> exact .nil
  | cons row rows ih =>
    cases idxsI with
    | nil =>
      unfold bumpRows at hb
      injection hb with hb
      subst hb
      rw [hr] at hr'
      injection hr' with hr'
      subst hr'
      exact List.forall₂_same.2 fun _ _ => le_refl _
    | cons iI idxsI =>
      unfold bumpRows at hb
      rw [exceptBind_ok] at hb
      obtain ⟨row₁, hrow, hb⟩ := hb
      rw [exceptBind_ok] at hb
      obtain ⟨rest₁, hrest₁, hb⟩ := hb
      simp only [pure, Except.pure, Except.ok.injEq] at hb
      subst hb
      cases idxsX with
      | nil =>
        unfold readCells at hr hr'
        injection hr with hr
        injection hr' with hr'
        subst hr; subst hr'
        exact .nil
      | cons iX idxsX =>
        unfold readCells at hr hr'
        rw [exceptBind_ok] at hr hr'
        obtain ⟨v, hv, hr⟩ := hr
        obtain ⟨v', hv', hr'⟩ := hr'
        rw [exceptBind_ok] at hr hr'
        obtain ⟨restv, hrestv, hr⟩ := hr
        obtain ⟨restv', hrestv', hr'⟩ := hr'
        simp only [pure, Except.pure, Except.ok.injEq] at hr hr'
        subst hr; subst hr'
        refine .cons ?_ (ih hrest₁ hrestv hrestv')
        have := pyGet_pySetAdd hrow hv
        rw [this] at hv'
        injection hv' with hv'
        subst hv'
        split <;> omega

/-- `min` folds compare pointwise: smaller inputs give a smaller minimum. -/
theorem foldl_min_le_foldl_min {a b : Int} {vs vs' : List Int} (hab : a ≤ b)
    (h : List.Forall₂ (· ≤ ·) vs vs') : vs.foldl min a ≤ vs'.foldl min b := by
  induction h generalizing a b with
  | nil => exact hab
  | cons hxy _ ih => exact ih (min_le_min hab hxy)

theorem le_foldl_min {f a : Int} {vs : List Int} (ha : f ≤ a)
    (h : ∀ b ∈ vs, f ≤ b) : f ≤ vs.foldl min a := by
  induction vs generalizing a with
  | nil => exact ha
  | cons x xs ih =>
    exact ih (le_min ha (h x (List.mem_cons_self x xs)))
      fun b hb => h b (List.mem_cons_of_mem _ hb)

/-- Compose two pointwise `+ d ≤` relations. -/
theorem forall₂_add_comp {d₁ d₂ : Int} {l₁ l₂ l₃ : List Int}
    (h₁ : List.Forall₂ (fun a b => a + d₁ ≤ b) l₁ l₂)
    (h₂ : List.Forall₂ (fun a b => a + d₂ ≤ b) l₂ l₃) :
    List.Forall₂ (fun a b => a + (d₁ + d₂) ≤ b) l₁ l₃ := by
  induction h₁ generalizing l₃ with
  | nil => cases h₂; exact .nil
  | cons hxy _ ih =>
    cases h₂ with
    | cons hyz hrest₂ => exact .cons (by omega) (ih hrest₂)

/-! ## Structural lemmas about `update` and `_update_heap` -/

open CountMinSketch

variable {Item : Type} [LinearOrder Item] {H : Item → Nat → Nat}

/-- Exhaustive characterisation of a successful `_update_heap` call: the four
branches of the source, with `heappushpop` already reduced in the last. -/
theorem updateHeap_cases {s s' : CountMinSketch Item} {i : Item}
    (h : updateHeap H s i = .ok s') :
    ∃ est, estimate H s i = .ok est ∧
      ((∃ v, lookupA s.topk i = some v ∧
          s' = { s with
            heap := List.insertionSort pairLe
              (s.heap.map fun p => if p.2 = i then (est, i) else p),
            topk := setAssoc s.topk i est }) ∨
       (lookupA s.topk i = none ∧ (s.heap.length : Int) < s.k ∧
          s' = { s with
            heap := List.orderedInsert pairLe (est, i) s.heap,
            topk := s.topk ++ [(i, est)] }) ∨
       (lookupA s.topk i = none ∧ ¬ (s.heap.length : Int) < s.k ∧
          ∃ m rest, s.heap = m :: rest ∧ est ≤ m.1 ∧ s' = s) ∨
       (lookupA s.topk i = none ∧ ¬ (s.heap.length : Int) < s.k ∧
          ∃ m rest, s.heap = m :: rest ∧ m.1 < est ∧
          ∃ v, lookupA s.topk m.2 = some v ∧
          s' = { s with
            heap := List.orderedInsert pairLe (est, i) rest,
            topk := eraseKey s.topk m.2 ++ [(i, est)] })) := by
  unfold updateHeap at h
  rw [exceptBind_ok] at h
  obtain ⟨est, hest, h⟩ := h
  refine ⟨est, hest, ?_⟩
  split at h
  · next v hlk =>
    simp only [pure, Except.pure, Except.ok.injEq] at h
    exact Or.inl ⟨v, hlk, h.symm⟩
  · next hlk =>
    split at h
    · next hlen =>
      simp only [pure, Except.pure, Except.ok.injEq] at h
      exact Or.inr (Or.inl ⟨hlk, hlen, h.symm⟩)
    · next hlen =>
      split at h
      · exact absurd h (by simp)
      · next m tail hheap =>
        split at h
        · next hle =>
          simp only [pure, Except.pure, Except.ok.injEq] at h
          exact Or.inr (Or.inr (Or.inl ⟨hlk, hlen, m, tail, hheap, hle, h.symm⟩))
        · next hle =>
          have hlt : pairLt m (est, i) := Or.inl (not_le.mp hle)
          have hpp : heappushpop s.heap (est, i) =
              (m, List.orderedInsert pairLe (est, i) tail) := by
            rw [hheap]
            simp [heappushpop, hlt]
          rw [hpp] at h
          split at h
          · exact absurd h (by simp)
          · next v hlk2 =>
            simp only [pure, Except.pure, Except.ok.injEq] at h
            exact Or.inr (Or.inr (Or.inr
              ⟨hlk, hlen, m, tail, hheap, not_le.mp hle, v, hlk2, h.symm⟩))

/-- `_update_heap` touches only the heap and the reverse index. -/
theorem updateHeap_frame {s s' : CountMinSketch Item} {i : Item}
    (h : updateHeap H s i = .ok s') :
    s'.w = s.w ∧ s'.d = s.d ∧ s'.k = s.k ∧ s'.n = s.n ∧ s'.tables = s.tables := by
  obtain ⟨est, -, hc⟩ := updateHeap_cases h
  rcases hc with ⟨v, -, rfl⟩ | ⟨-, -, rfl⟩ | ⟨-, -, m, rest, -, -, rfl⟩ |
    ⟨-, -, m, rest, -, -, v, -, rfl⟩ <;> exact ⟨rfl, rfl, rfl, rfl, rfl⟩

/-- Decomposition of a successful `update` call. -/
theorem update_ok_elim {s s' : CountMinSketch Item} {i : Item} {c : Int}
    (h : update H s i c = .ok s') :
    0 ≤ c ∧ ∃ tbs, bumpRows c s.tables (hashIdxs H s i) = .ok tbs ∧
      updateHeap H { s with n := s.n + c, tables := tbs } i = .ok s' := by
  unfold update at h
  split at h
  · exact absurd h (by simp)
  · next hc =>
    rw [exceptBind_ok] at h
    obtain ⟨tbs, htbs, h⟩ := h
    exact ⟨not_lt.mp hc, tbs, htbs, h⟩

/-- `update` preserves width, depth, capacity; it adds `count` to the total. -/
theorem update_frame {s s' : CountMinSketch Item} {i : Item} {c : Int}
    (h : update H s i c = .ok s') :
    s'.w = s.w ∧ s'.d = s.d ∧ s'.k = s.k ∧ s'.n = s.n + c := by
  obtain ⟨-, tbs, -, hup⟩ := update_ok_elim h
  obtain ⟨hw, hd, hk, hn, -⟩ := updateHeap_frame hup
  exact ⟨hw, hd, hk, hn⟩

theorem hashIdxs_congr {s s' : CountMinSketch Item} (hw : s'.w = s.w)
    (hd : s'.d = s.d) (x : Item) : hashIdxs H s' x = hashIdxs H s x := by
  unfold hashIdxs
  rw [hw, hd]

/-- One successful `update` of item `i` with weight `c` makes every cell that
item `x` hashes to grow by at least `c` when `x = i`, and never shrink. -/
theorem update_cells {s s' : CountMinSketch Item} {i : Item} {c : Int} {x : Item}
    (h : update H s i c = .ok s') {vs' : List Int}
    (hr' : readCells s'.tables (hashIdxs H s' x) = .ok vs') :
    ∃ vs, readCells s.tables (hashIdxs H s x) = .ok vs ∧
      List.Forall₂ (fun a b => a + (if i = x then c else 0) ≤ b) vs vs' := by
  obtain ⟨hc, tbs, htbs, hup⟩ := update_ok_elim h
  obtain ⟨hw, hd, -, -, htab⟩ := updateHeap_frame hup
  have hw' : s'.w = s.w := hw
  have hd' : s'.d = s.d := hd
  have htab' : s'.tables = tbs := htab
  rw [htab', hashIdxs_congr hw' hd'] at hr'
  have hshape := bumpRows_shape htbs
  have hshape' : List.Forall₂ (fun (r r' : List Int) => r.length = r'.length)
      tbs s.tables := hshape.flip.imp fun _ _ hab => hab.symm
  obtain ⟨vs, hvs⟩ := readCells_transfer hshape' hr'
  refine ⟨vs, hvs, ?_⟩
  by_cases hix : i = x
  · subst hix
    rw [if_pos rfl]
    exact (bump_read_same htbs hvs hr').imp fun _ _ hab => by omega
  · rw [if_neg hix]
    exact (bump_read_mono hc htbs hvs hr').imp fun _ _ hab => by omega

/-- Across a successful run of updates, every cell of `x` grows by at least
the total weight applied to `x`. -/
theorem run_cells {s : CountMinSketch Item} {ops : List (Item × Int)}
    {s1 : CountMinSketch Item} (h : runUpdates H s ops = .ok s1) {x : Item}
    {vs' : List Int} (hr' : readCells s1.tables (hashIdxs H s1 x) = .ok vs') :
    ∃ vs, readCells s.tables (hashIdxs H s x) = .ok vs ∧
      List.Forall₂ (fun a b => a + trueFreq x ops ≤ b) vs vs' := by
  induction ops generalizing s with
  | nil =>
    unfold runUpdates at h
    injection h with h
    subst h
    exact ⟨vs', hr', List.forall₂_same.2 fun a _ => by simp [trueFreq]⟩
  | cons op rest ih =>
    obtain ⟨i, c⟩ := op
    unfold runUpdates at h
    rw [exceptBind_ok] at h
    obtain ⟨sMid, hup, hrun⟩ := h
    obtain ⟨vsMid, hrMid, hrelMid⟩ := ih hrun
    obtain ⟨vs, hr, hrel⟩ := update_cells hup hrMid
    refine ⟨vs, hr, ?_⟩
    have hcomp := forall₂_add_comp hrel hrelMid
    simpa [trueFreq] using hcomp

theorem init_ok_elim {w d k : Int} {s0 : CountMinSketch Item}
    (h : (init w d k : Except PyErr (CountMinSketch Item)) = .ok s0) :
    ¬ (w = 0 ∨ d = 0) ∧
      s0 = { w := w, d := d, k := k, n := 0, heap := [], topk := [],
             tables := (List.range d.toNat).map
               (fun _ => List.replicate w.toNat 0) } := by
  unfold init at h
  split at h
  · exact absurd h (by simp)
  · next hwd =>
    injection h with h
    exact ⟨hwd, h.symm⟩

theorem pyGet_zero {l : List Int} (hl : ∀ a ∈ l, a = 0) {j v : Int}
    (h : pyGet l j = .ok v) : v = 0 := by
  unfold pyGet at h
  split at h
  · injection h with h
    subst h
    by_cases hb : (normIdx l.length j).toNat < l.length
    · rw [List.getD_eq_getElem _ _ hb]
      exact hl _ (List.getElem_mem ..)
    · rw [List.getD_eq_default _ _ (le_of_not_lt hb)]
  · exact absurd h (by simp)

theorem readCells_zero {rows : List (List Int)}
    (hrows : ∀ row ∈ rows, ∀ a ∈ row, a = 0) {idxs vs : List Int}
    (h : readCells rows idxs = .ok vs) : ∀ a ∈ vs, a = 0 := by
  induction rows generalizing idxs vs with
  | nil =>
    cases idxs <;> unfold readCells at h <;> injection h with h <;> subst h <;> simp
  | cons row rows ih =>
    cases idxs with
    | nil =>
      unfold readCells at h
      injection h with h
      subst h
      simp
    | cons idx idxs =>
      unfold readCells at h
      rw [exceptBind_ok] at h
      obtain ⟨v, hv, h⟩ := h
      rw [exceptBind_ok] at h
      obtain ⟨restv, hrest, h⟩ := h
      simp only [pure, Except.pure, Except.ok.injEq] at h
      subst h
      intro a ha
      rcases List.mem_cons.mp ha with rfl | ha
      · exact pyGet_zero (hrows row (List.mem_cons_self ..)) hv
      · exact ih (fun r hr => hrows r (List.mem_cons_of_mem _ hr)) hrest a ha

/-! ## Association-list lemmas for the reverse index -/

theorem lookupA_eq_none {l : List (Item × Int)} {x : Item} :
    lookupA l x = none ↔ x ∉ l.map Prod.fst := by
  induction l with
  | nil => simp [lookupA]
  | cons e t ih =>
    obtain ⟨i, v⟩ := e
    by_cases hix : i = x
    · subst hix
      simp [lookupA]
    · simp [lookupA, hix, ih, Ne.symm hix]

theorem lookupA_of_mem_nodup {l : List (Item × Int)}
    (hnd : (l.map Prod.fst).Nodup) {x : Item} {v : Int} (hmem : (x, v) ∈ l) :
    lookupA l x = some v := by
  induction l with
  | nil => simp at hmem
  | cons e t ih =>
    obtain ⟨i, w⟩ := e
    rw [List.map_cons] at hnd
    obtain ⟨hi, ht⟩ := List.nodup_cons.mp hnd
    rcases List.mem_cons.mp hmem with heq | hmem'
    · injection heq with h1 h2
      subst h1; subst h2
      simp [lookupA]
    · have hix : i ≠ x := by
        intro hh
        subst hh
        exact hi (List.mem_map.mpr ⟨(i, v), hmem', rfl⟩)
      simp [lookupA, hix, ih ht hmem']

theorem setAssoc_map_fst {l : List (Item × Int)} {x : Item} {e : Int} :
    (setAssoc l x e).map Prod.fst = l.map Prod.fst := by
  induction l with
  | nil => rfl
  | cons hd t ih =>
    obtain ⟨i, v⟩ := hd
    by_cases hix : i = x
    · subst hix
      simp [setAssoc]
    · simp [setAssoc, hix, ih]

theorem setAssoc_length {l : List (Item × Int)} {x : Item} {e : Int} :
    (setAssoc l x e).length = l.length := by
  have h := congrArg List.length (@setAssoc_map_fst Item _ l x e)
  simpa using h

theorem map_if_not_mem {t : List (Item × Int)} {x : Item} {e : Int}
    (hx : x ∉ t.map Prod.fst) :
    (t.map flipP).map (fun q => if q.2 = x then (e, x) else q) = t.map flipP := by
  induction t with
  | nil => rfl
  | cons hd t ih =>
    obtain ⟨j, w⟩ := hd
    have hjx : j ≠ x := by
      intro hh
      exact hx (by simp [hh])
    simp only [List.map_cons]
    rw [ih fun hmem => hx (by rw [List.map_cons]; exact List.mem_cons_of_mem _ hmem)]
    simp [flipP, hjx]

/-- Overwriting the estimate stored for key `x` corresponds, on the heap
side, to replacing the aliased pair. -/
theorem setAssoc_flipP_eq {x : Item} {e : Int} :
    ∀ {l : List (Item × Int)}, (l.map Prod.fst).Nodup →
      (setAssoc l x e).map flipP
        = (l.map flipP).map (fun q => if q.2 = x then (e, x) else q)
  | [], _ => rfl
  | (i, v) :: t, hnd => by
    rw [List.map_cons] at hnd
    obtain ⟨hi, ht⟩ := List.nodup_cons.mp hnd
    by_cases hix : i = x
    · subst hix
      rw [setAssoc, if_pos rfl]
      simp only [List.map_cons]
      rw [map_if_not_mem hi]
      simp [flipP]
    · rw [setAssoc, if_neg hix]
      simp only [List.map_cons]
      rw [setAssoc_flipP_eq ht]
      simp [flipP, hix]

theorem eraseKey_perm_of_lookup {l : List (Item × Int)} {x : Item} {v : Int}
    (h : lookupA l x = some v) :
    List.Perm l ((x, v) :: eraseKey l x) := by
  induction l with
  | nil => simp [lookupA] at h
  | cons hd t ih =>
    obtain ⟨i, w⟩ := hd
    by_cases hix : i = x
    · subst hix
      rw [lookupA, if_pos rfl] at h
      injection h with h
      subst h
      rw [eraseKey, if_pos rfl]
    · rw [lookupA, if_neg hix] at h
      rw [eraseKey, if_neg hix]
      exact ((ih h).cons (i, w)).trans (List.Perm.swap (x, v) (i, w) _)

/-! ## Preservation of the tracker invariant -/

theorem trackInv_updateHeap {s s' : CountMinSketch Item} {i : Item}
    (hinv : TrackInv s) (h : updateHeap H s i = .ok s') : TrackInv s' := by
  obtain ⟨hsort, hnd, hperm, hlen⟩ := hinv
  obtain ⟨est, -, hc⟩ := updateHeap_cases h
  rcases hc with ⟨v, hlk, rfl⟩ | ⟨hlk, hlt, rfl⟩ | ⟨hlk, hlt, m, rest, hheap, hle, rfl⟩ |
    ⟨hlk, hlt, m, rest, hheap, hme, v, hlk2, rfl⟩
  · -- already tracked: overwrite the aliased pair, re-heapify
    refine ⟨List.sorted_insertionSort pairLe _, ?_, ?_, ?_⟩
    · show ((setAssoc s.topk i est).map Prod.fst).Nodup
      rw [setAssoc_map_fst]
      exact hnd
    · show List.Perm _ ((setAssoc s.topk i est).map flipP)
      rw [setAssoc_flipP_eq hnd]
      exact (List.perm_insertionSort pairLe _).trans
        (hperm.map fun q => if q.2 = i then (est, i) else q)
    · show (setAssoc s.topk i est).length ≤ s.k.toNat
      rw [setAssoc_length]
      exact hlen
  · -- not tracked, below capacity: push into both structures
    have hnotin : i ∉ s.topk.map Prod.fst := lookupA_eq_none.mp hlk
    have hlh : s.heap.length = s.topk.length := by
      have := hperm.length_eq
      simpa using this
    refine ⟨List.Sorted.orderedInsert _ _ hsort, ?_, ?_, ?_⟩
    · show ((s.topk ++ [(i, est)]).map Prod.fst).Nodup
      simp only [List.map_append, List.map_cons, List.map_nil]
      exact (List.perm_append_singleton _ _).nodup_iff.mpr
        (List.nodup_cons.mpr ⟨hnotin, hnd⟩)
    · show List.Perm (List.orderedInsert pairLe (est, i) s.heap)
        ((s.topk ++ [(i, est)]).map flipP)
      simp only [List.map_append, List.map_cons, List.map_nil, flipP]
      exact (List.perm_orderedInsert _ _ _).trans
        ((hperm.cons _).trans (List.perm_append_singleton _ _).symm)
    · show (s.topk ++ [(i, est)]).length ≤ s.k.toNat
      rw [List.length_append, List.length_singleton]
      omega
  · -- not tracked, at capacity, estimate at most the minimum: unchanged
    exact ⟨hsort, hnd, hperm, hlen⟩
  · -- not tracked, at capacity, estimate above the minimum: evict the root
    have hnotin : i ∉ s.topk.map Prod.fst := lookupA_eq_none.mp hlk
    have hmem : (m.2, m.1) ∈ s.topk := by
      have hm : m ∈ s.topk.map flipP :=
        hperm.mem_iff.mp (by rw [hheap]; exact List.mem_cons_self ..)
      obtain ⟨e, he, hfe⟩ := List.mem_map.mp hm
      obtain ⟨e1, e2⟩ := e
      have h1 : e2 = m.1 ∧ e1 = m.2 := by
        simpa [flipP, Prod.ext_iff] using hfe
      rw [← h1.1, ← h1.2]
      exact he
    have hlkm : lookupA s.topk m.2 = some m.1 := lookupA_of_mem_nodup hnd hmem
    have hperm2 : List.Perm s.topk ((m.2, m.1) :: eraseKey s.topk m.2) :=
      eraseKey_perm_of_lookup hlkm
    have hkeys2 : List.Perm (s.topk.map Prod.fst)
        (m.2 :: (eraseKey s.topk m.2).map Prod.fst) := by
      have := hperm2.map Prod.fst
      simpa using this
    obtain ⟨hm2ni, hndK⟩ := List.nodup_cons.mp (hkeys2.nodup_iff.mp hnd)
    have hrest : List.Perm rest ((eraseKey s.topk m.2).map flipP) := by
      have h1 : List.Perm (s.topk.map flipP)
          (m :: (eraseKey s.topk m.2).map flipP) := by
        have := hperm2.map flipP
        simpa [flipP] using this
      rw [hheap] at hperm
      exact (hperm.trans h1).cons_inv
    refine ⟨?_, ?_, ?_, ?_⟩
    · have hr : List.Sorted pairLe rest := by
        rw [hheap] at hsort
        exact hsort.of_cons
      exact List.Sorted.orderedInsert _ _ hr
    · show ((eraseKey s.topk m.2 ++ [(i, est)]).map Prod.fst).Nodup
      simp only [List.map_append, List.map_cons, List.map_nil]
      refine (List.perm_append_singleton _ _).nodup_iff.mpr
        (List.nodup_cons.mpr ⟨?_, hndK⟩)
      intro hmemK
      exact hnotin (hkeys2.mem_iff.mpr (List.mem_cons_of_mem _ hmemK))
    · show List.Perm (List.orderedInsert pairLe (est, i) rest)
        ((eraseKey s.topk m.2 ++ [(i, est)]).map flipP)
      simp only [List.map_append, List.map_cons, List.map_nil, flipP]
      exact (List.perm_orderedInsert _ _ _).trans
        ((hrest.cons _).trans (List.perm_append_singleton _ _).symm)
    · show (eraseKey s.topk m.2 ++ [(i, est)]).length ≤ s.k.toNat
      rw [List.length_append, List.length_singleton]
      have h2 := hperm2.length_eq
      simp only [List.length_cons] at h2
      omega

theorem trackInv_update {s s' : CountMinSketch Item} {i : Item} {c : Int}
    (hinv : TrackInv s) (h : update H s i c = .ok s') : TrackInv s' := by
  obtain ⟨-, tbs, -, hup⟩ := update_ok_elim h
  exact trackInv_updateHeap
    (show TrackInv { s with n := s.n + c, tables := tbs } from hinv) hup

theorem trackInv_run {s s1 : CountMinSketch Item} {ops : List (Item × Int)}
    (hinv : TrackInv s) (h : runUpdates H s ops = .ok s1) : TrackInv s1 := by
  induction ops generalizing s with
  | nil =>
    unfold runUpdates at h
    injection h with h
    subst h
    exact hinv
  | cons op rest ih =>
    obtain ⟨i, c⟩ := op
    unfold runUpdates at h
    rw [exceptBind_ok] at h
    obtain ⟨sMid, hup, hrun⟩ := h
    exact ih (trackInv_update hinv hup) hrun

theorem trackInv_init {w d k : Int} {s0 : CountMinSketch Item}
    (h : (init w d k : Except PyErr (CountMinSketch Item)) = .ok s0) :
    TrackInv s0 := by
  obtain ⟨-, rfl⟩ := init_ok_elim h
  exact ⟨List.sorted_nil, List.nodup_nil, List.Perm.nil, Nat.zero_le _⟩

theorem runUpdates_k {s s1 : CountMinSketch Item} {ops : List (Item × Int)}
    (h : runUpdates H s ops = .ok s1) : s1.k = s.k := by
  induction ops generalizing s with
  | nil =>
    unfold runUpdates at h
    injection h with h
    subst h
    rfl
  | cons op rest ih =>
    obtain ⟨i, c⟩ := op
    unfold runUpdates at h
    rw [exceptBind_ok] at h
    obtain ⟨sMid, hup, hrun⟩ := h
    rw [ih hrun, (update_frame hup).2.2.1]

/-! ## Helpers for the claim theorems -/

theorem exceptOk_bind {ε α β : Type} (a : α) (f : α → Except ε β) :
    ((Except.ok a : Except ε α) >>= f) = f a :=
  rfl

theorem estimate_ok_elim {s : CountMinSketch Item} {x : Item} {v : Int}
    (h : estimate H s x = .ok v) :
    ∃ v₀ vs, readCells s.tables (hashIdxs H s x) = .ok (v₀ :: vs) ∧
      v = vs.foldl min v₀ := by
  unfold estimate at h
  rw [exceptBind_ok] at h
  obtain ⟨vals, hvals, h⟩ := h
  cases vals with
  | nil => exact absurd h (by simp)
  | cons v₀ vs =>
    refine ⟨v₀, vs, hvals, ?_⟩
    simp only [pure, Except.pure, Except.ok.injEq] at h
    exact h.symm

theorem forall₂_right_bound {f : Int} {l₁ l₂ : List Int}
    (h : List.Forall₂ (fun a b => a + f ≤ b) l₁ l₂) (h0 : ∀ a ∈ l₁, a = 0) :
    ∀ b ∈ l₂, f ≤ b := by
  induction h with
  | nil => simp
  | @cons a b l₁ l₂ hab _ ih =>
    intro b' hb'
    rcases List.mem_cons.mp hb' with rfl | hb'
    · have ha : a = 0 := h0 a (List.mem_cons_self ..)
      omega
    · exact ih (fun a' ha' => h0 a' (List.mem_cons_of_mem _ ha')) b' hb'

/-- The root of the heap is recorded in the reverse index with its estimate. -/
theorem lookupA_of_mem_heap {s : CountMinSketch Item}
    (hnd : (s.topk.map Prod.fst).Nodup)
    (hperm : List.Perm s.heap (s.topk.map flipP)) {m : Int × Item}
    (hm : m ∈ s.heap) : lookupA s.topk m.2 = some m.1 := by
  have hm' : m ∈ s.topk.map flipP := hperm.mem_iff.mp hm
  obtain ⟨e, he, hfe⟩ := List.mem_map.mp hm'
  obtain ⟨e1, e2⟩ := e
  have h1 : e2 = m.1 ∧ e1 = m.2 := by
    simpa [flipP, Prod.ext_iff] using hfe
  refine lookupA_of_mem_nodup hnd ?_
  rw [← h1.1, ← h1.2]
  exact he

theorem lookupA_append_none {l₁ l₂ : List (Item × Int)} {x : Item}
    (h : lookupA l₁ x = none) : lookupA (l₁ ++ l₂) x = lookupA l₂ x := by
  induction l₁ with
  | nil => rfl
  | cons hd t ih =>
    obtain ⟨i, v⟩ := hd
    by_cases hix : i = x
    · rw [lookupA, if_pos hix] at h
      exact absurd h (by simp)
    · rw [lookupA, if_neg hix] at h
      rw [List.cons_append, lookupA, if_neg hix]
      exact ih h

theorem eraseKey_keys_subset {l : List (Item × Int)} {y a : Item}
    (h : a ∈ (eraseKey l y).map Prod.fst) : a ∈ l.map Prod.fst := by
  induction l with
  | nil => simpa [eraseKey] using h
  | cons hd t ih =>
    obtain ⟨i, v⟩ := hd
    by_cases hiy : i = y
    · rw [eraseKey, if_pos hiy] at h
      exact List.mem_cons_of_mem _ h
    · rw [eraseKey, if_neg hiy] at h
      rw [List.map_cons] at h ⊢
      rcases List.mem_cons.mp h with rfl | h
      · exact List.mem_cons_self ..
      · exact List.mem_cons_of_mem _ (ih h)

/-- The items in the heap are pairwise distinct. -/
theorem heap_snd_nodup {s : CountMinSketch Item}
    (hnd : (s.topk.map Prod.fst).Nodup)
    (hperm : List.Perm s.heap (s.topk.map flipP)) :
    (s.heap.map Prod.snd).Nodup := by
  have h1 : List.Perm (s.heap.map Prod.snd) (s.topk.map Prod.fst) := by
    have := hperm.map Prod.snd
    simpa [flipP, Function.comp] using this
  exact h1.nodup_iff.mpr hnd

/-! ## Claim theorems -/

/-- C1 (counterexample): the claim says `construct(-1, 3)` fails with a
configuration error and no sketch is produced, but `__init__` checks only
`if not w or not d` — Python truthiness, which rejects exactly zero — so a
negative width passes validation and a sketch object is returned (its three
rows are empty, since `range(-1)` is empty). -/
theorem cms_C1_counterexample :
    (init (-1) 3 10 : Except PyErr (CountMinSketch Nat)) =
      .ok { w := -1, d := 3, k := 10, n := 0, heap := [], topk := [],
            tables := [[], [], []] } :=
  rfl

/-- C1 (amended): construction fails with `ValueError` if and only if
`width == 0` or `depth == 0`; in particular `construct(0, 5)` and
`construct(5, 0)` fail with no sketch produced, while `construct(-1, 3)`
succeeds — negative dimensions are not validated. -/
theorem cms_C1_init_fails_iff_zero (Item : Type) (w d k : Int) :
    (init w d k : Except PyErr (CountMinSketch Item)) = .error PyErr.valueError
      ↔ (w = 0 ∨ d = 0) := by
  unfold init
  split <;> simp_all

/-- C2 (code bug): `CountMinSketchUsingEpsAndDelta.__init__` never returns a
sketch: for every argument pair it raises — `ZeroDivisionError` when
`eps == 0` (from `1 / eps`), and otherwise `TypeError`, because
`math.log(1 - delta, base=0.5)` passes a keyword argument to CPython's
`math.log`, which accepts none.  The claimed derivation of `depth` and the
delegation to the primary constructor are never reached. -/
theorem cms_C2_fromBounds_always_raises (Item : Type) (eps delta : ℚ) :
    initUsingEpsAndDelta Item eps delta =
      .error (if eps = 0 then PyErr.zeroDivisionError else PyErr.typeError) := by
  unfold initUsingEpsAndDelta
  split <;> rfl

/-- C5 (confirmed): `update` with a negative weight raises `ValueError`
before any mutation: the check `if count < 0` is the first statement of
`update`, so the total count, the counter table, the heap and the reverse
index are all untouched (in this functional model, an error returns no
successor state at all, and the source raises before assigning anything). -/
theorem cms_C5_negative_weight_rejected (Item : Type) [LinearOrder Item]
    (H : Item → Nat → Nat) (s : CountMinSketch Item) (item : Item) (c : Int)
    (hc : c < 0) : update H s item c = .error PyErr.valueError := by
  unfold update
  rw [if_pos hc]

/-- C5 witness: `update("x", -1)` on a fresh 5×2 sketch fails with
`ValueError`. -/
theorem cms_C5_witness :
    update H0 { w := 5, d := 2, k := 10, n := 0, heap := [], topk := [],
                tables := [[0,0,0,0,0],[0,0,0,0,0]] } 0 (-1) =
      .error PyErr.valueError :=
  cms_C5_negative_weight_rejected Nat H0 _ 0 (-1) (by decide)

/-- C9 (code bug): `merge` always fails and never mutates the sketch, but
the condition is `TypeError`, not a `NotImplemented`/`UnsupportedOperation`
condition: the body `raise NotImplemented('...')` calls the non-callable
`NotImplemented` singleton, which raises
`TypeError: 'NotImplementedType' object is not callable` before the `raise`
can fire.  (The intended exception was evidently `NotImplementedError`.) -/
theorem cms_C9_merge_always_typeerror (Item : Type)
    (s other : CountMinSketch Item) :
    merge s other = .error PyErr.typeError :=
  rfl

/-- C3 (confirmed): no-underestimate.  For a sketch constructed with
positive width and depth, after any successful sequence of non-negative
updates, `estimate(x)` is at least the true total weight applied to `x`:
each of `x`'s counters receives every one of `x`'s increments (plus possible
collisions), so their minimum is at least the true frequency. -/
theorem cms_C3_no_underestimate (Item : Type) [LinearOrder Item]
    (H : Item → Nat → Nat) (w d k : Int) (s0 s1 : CountMinSketch Item)
    (ops : List (Item × Int)) (x : Item) (v : Int)
    (hw : 0 < w) (hd : 0 < d)
    (h0 : (init w d k : Except PyErr (CountMinSketch Item)) = .ok s0)
    (hops : ∀ p ∈ ops, 0 ≤ p.2)
    (hrun : runUpdates H s0 ops = .ok s1)
    (hest : estimate H s1 x = .ok v) :
    trueFreq x ops ≤ v := by
  obtain ⟨v₀, vs, hcells, rfl⟩ := estimate_ok_elim hest
  obtain ⟨vs0, hr0, hrel⟩ := run_cells hrun hcells
  obtain ⟨-, rfl⟩ := init_ok_elim h0
  have hzero : ∀ a ∈ vs0, a = 0 := by
    refine readCells_zero ?_ hr0
    intro row hrow a ha
    obtain ⟨-, -, rfl⟩ := List.mem_map.mp hrow
    exact List.eq_of_mem_replicate ha
  have hbound := forall₂_right_bound hrel hzero
  exact le_foldl_min (hbound v₀ (List.mem_cons_self ..))
    fun b hb => hbound b (List.mem_cons_of_mem _ hb)

/-- C3 witness: the §8 scenario (5×2 table): after
`update(1,5); update(2,3); update(1,2)` the estimate of item 1 is 7 ≥ its
true frequency 7. -/
theorem cms_C3_witness :
    trueFreq 1 [(1, 5), (2, 3), (1, 2)] ≤ 7 :=
  cms_C3_no_underestimate Nat H0 5 2 10
    { w := 5, d := 2, k := 10, n := 0, heap := [], topk := [],
      tables := [[0, 0, 0, 0, 0], [0, 0, 0, 0, 0]] }
    { w := 5, d := 2, k := 10, n := 10, heap := [(3, 2), (7, 1)],
      topk := [(1, 7), (2, 3)], tables := [[0, 7, 3, 0, 0], [0, 0, 7, 3, 0]] }
    [(1, 5), (2, 3), (1, 2)] 1 7
    (by decide) (by decide) rfl (by decide) rfl rfl

/-- C4 (confirmed): monotonicity.  A single successful `update` — of `x`
itself or of any other item — never decreases `estimate(x)`: every counter
is only incremented (by a non-negative weight, since the update succeeded),
so the row minimum cannot drop. -/
theorem cms_C4_estimate_monotone (Item : Type) [LinearOrder Item]
    (H : Item → Nat → Nat) (s s' : CountMinSketch Item) (i x : Item)
    (c v v' : Int)
    (hw : 0 < s.w) (hd : 0 < s.d)
    (hup : update H s i c = .ok s')
    (hv : estimate H s x = .ok v) (hv' : estimate H s' x = .ok v') :
    v ≤ v' := by
  obtain ⟨v₀, vs, hcells, rfl⟩ := estimate_ok_elim hv
  obtain ⟨v₀', vs', hcells', rfl⟩ := estimate_ok_elim hv'
  obtain ⟨vsA, hrA, hrel⟩ := update_cells hup hcells'
  rw [hcells] at hrA
  injection hrA with hrA
  subst hrA
  have hc := (update_ok_elim hup).1
  have hrel' : List.Forall₂ (· ≤ ·) (v₀ :: vs) (v₀' :: vs') := by
    refine hrel.imp ?_
    intro a b hab
    by_cases hix : i = x
    · rw [if_pos hix] at hab
      omega
    · rw [if_neg hix] at hab
      omega
  cases hrel' with
  | cons h1 h2 => exact foldl_min_le_foldl_min h1 h2

/-- C4 witness: on a fresh 5×2 sketch, `update(1, 5)` raises
`estimate(1)` from 0 to 5; 0 ≤ 5. -/
theorem cms_C4_witness : (0 : Int) ≤ 5 :=
  cms_C4_estimate_monotone Nat H0
    ⟨5, 2, 10, 0, [], [], [[0, 0, 0, 0, 0], [0, 0, 0, 0, 0]]⟩
    ⟨5, 2, 10, 5, [(5, 1)], [(1, 5)], [[0, 5, 0, 0, 0], [0, 0, 5, 0, 0]]⟩
    1 1 5 0 5 (by decide) (by decide) rfl rfl rfl

/-- C8 (confirmed): for a sketch constructed with positive capacity `k`,
after any successful sequence of updates `heavyHitters()` returns at most
`k` entries — the tracker inserts a new item only while `len(heap) < k`,
and eviction replaces one entry by another. -/
theorem cms_C8_capacity_bound (Item : Type) [LinearOrder Item]
    (H : Item → Nat → Nat) (w d k : Int) (s0 s1 : CountMinSketch Item)
    (ops : List (Item × Int))
    (hk : 0 < k)
    (h0 : (init w d k : Except PyErr (CountMinSketch Item)) = .ok s0)
    (hrun : runUpdates H s0 ops = .ok s1) :
    ((heavyHitters s1).length : Int) ≤ k := by
  have hinv := trackInv_run (trackInv_init h0) hrun
  have hlen := hinv.2.2.2
  have hks : s1.k = s0.k := runUpdates_k hrun
  have hk0 : s0.k = k := by
    obtain ⟨-, rfl⟩ := init_ok_elim h0
    rfl
  show ((s1.topk.length : Nat) : Int) ≤ k
  rw [hk0] at hks
  rw [hks] at hlen
  omega

/-- C8 witness: a capacity-1 sketch after one update tracks one item,
and 1 ≤ 1. -/
theorem cms_C8_witness :
    ((heavyHitters (⟨1, 1, 1, 1, [(1, 0)], [(0, 1)], [[1]]⟩ :
      CountMinSketch Nat)).length : Int) ≤ 1 :=
  cms_C8_capacity_bound Nat H0 1 1 1 _
    ⟨1, 1, 1, 1, [(1, 0)], [(0, 1)], [[1]]⟩ [(0, 1)] (by decide) rfl rfl

/-- C10 (confirmed): after any successful run on a sketch with positive
width and depth, the heap and the reverse index never drift apart: the
multiset of heap items equals the key multiset of the reverse index (hence
equal sizes), each index entry's pair is in the heap, and each heap entry's
item is an index key. -/
theorem cms_C10_heap_index_sync (Item : Type) [LinearOrder Item]
    (H : Item → Nat → Nat) (w d k : Int) (s0 s1 : CountMinSketch Item)
    (ops : List (Item × Int))
    (hw : 0 < w) (hd : 0 < d)
    (h0 : (init w d k : Except PyErr (CountMinSketch Item)) = .ok s0)
    (hrun : runUpdates H s0 ops = .ok s1) :
    List.Perm (s1.heap.map Prod.snd) (s1.topk.map Prod.fst) ∧
    s1.heap.length = s1.topk.length ∧
    (∀ e ∈ s1.topk, (e.2, e.1) ∈ s1.heap) ∧
    (∀ p ∈ s1.heap, p.2 ∈ s1.topk.map Prod.fst) := by
  obtain ⟨-, hnd, hperm, -⟩ := trackInv_run (trackInv_init h0) hrun
  have hsnd : List.Perm (s1.heap.map Prod.snd) (s1.topk.map Prod.fst) := by
    have := hperm.map Prod.snd
    simpa [flipP, Function.comp] using this
  refine ⟨hsnd, ?_, ?_, ?_⟩
  · have := hperm.length_eq
    simpa using this
  · intro e he
    exact hperm.mem_iff.mpr (List.mem_map.mpr ⟨e, he, rfl⟩)
  · intro p hp
    exact hsnd.mem_iff.mp (List.mem_map.mpr ⟨p, hp, rfl⟩)

/-- C10 witness: the capacity-1 run of the C8 witness, where the heap holds
exactly the reverse index's pair. -/
theorem cms_C10_witness :
    List.Perm
      ((⟨1, 1, 1, 1, [(1, 0)], [(0, 1)], [[1]]⟩ :
        CountMinSketch Nat).heap.map Prod.snd)
      ((⟨1, 1, 1, 1, [(1, 0)], [(0, 1)], [[1]]⟩ :
        CountMinSketch Nat).topk.map Prod.fst) :=
  (cms_C10_heap_index_sync Nat H0 1 1 1 _
    ⟨1, 1, 1, 1, [(1, 0)], [(0, 1)], [[1]]⟩ [(0, 1)]
    (by decide) (by decide) rfl rfl).1

/-- C6 (confirmed): eviction at capacity.  With the tracker internally
consistent and exactly full (`len(heap) = k`), an update of an untracked
item whose fresh estimate `est` satisfies:

* `est ≤ heap[0].estimate` (the minimum, by the heap/sortedness invariant):
  the state is left completely unchanged (ties favour the incumbent);
* `est > heap[0].estimate`: the root pair — one with the smallest estimate —
  is removed from both the heap and the reverse index, the new pair is
  inserted into both, and the heap size is preserved. -/
theorem cms_C6_eviction_at_capacity (Item : Type) [LinearOrder Item]
    (H : Item → Nat → Nat) (s : CountMinSketch Item) (item : Item)
    (m : Int × Item) (rest : List (Int × Item)) (est : Int)
    (hinv : TrackInv s)
    (hheap : s.heap = m :: rest)
    (hfull : (s.heap.length : Int) = s.k)
    (hnew : lookupA s.topk item = none)
    (hest : estimate H s item = .ok est) :
    (∀ p ∈ s.heap, m.1 ≤ p.1) ∧
    (est ≤ m.1 → updateHeap H s item = .ok s) ∧
    (m.1 < est →
      updateHeap H s item = .ok
        { s with heap := List.orderedInsert pairLe (est, item) rest,
                 topk := eraseKey s.topk m.2 ++ [(item, est)] } ∧
      ((est, item) ∈ List.orderedInsert pairLe (est, item) rest ∧
        lookupA (eraseKey s.topk m.2 ++ [(item, est)]) item = some est) ∧
      (m ∉ List.orderedInsert pairLe (est, item) rest ∧
        lookupA (eraseKey s.topk m.2 ++ [(item, est)]) m.2 = none) ∧
      (List.orderedInsert pairLe (est, item) rest).length = s.heap.length) := by
  obtain ⟨hsort, hnd, hperm, hlen⟩ := hinv
  have hnl : ¬ ((s.heap.length : Int) < s.k) := by omega
  have hmin : ∀ p ∈ s.heap, m.1 ≤ p.1 := by
    intro p hp
    rw [hheap] at hp
    rcases List.mem_cons.mp hp with rfl | hp
    · exact le_refl _
    · have hsort' : List.Sorted pairLe (m :: rest) := by
        rw [hheap] at hsort
        exact hsort
      rcases (List.sorted_cons.mp hsort').1 p hp with h | ⟨h, -⟩
      · exact le_of_lt h
      · exact le_of_eq h
  refine ⟨hmin, ?_, ?_⟩
  · -- tie or below: the state is unchanged
    intro hle
    simp only [updateHeap, hest, exceptOk_bind, hnew]
    rw [if_neg hnl]
    simp only [hheap]
    rw [if_pos hle]
    rfl
  · -- strictly above the minimum: evict the root
    intro hlt
    have hmmem : m ∈ s.heap := by
      rw [hheap]
      exact List.mem_cons_self ..
    have hlkm : lookupA s.topk m.2 = some m.1 := lookupA_of_mem_heap hnd hperm hmmem
    have hitem_notin : item ∉ s.topk.map Prod.fst := lookupA_eq_none.mp hnew
    have hm2mem : m.2 ∈ s.topk.map Prod.fst := by
      by_contra hmm
      rw [lookupA_eq_none.mpr hmm] at hlkm
      exact Option.noConfusion hlkm
    have hne : item ≠ m.2 := by
      intro hh
      rw [hh] at hitem_notin
      exact hitem_notin hm2mem
    have hplt : pairLt m (est, item) := Or.inl hlt
    have hpp : heappushpop (m :: rest) (est, item) =
        (m, List.orderedInsert pairLe (est, item) rest) := by
      simp [heappushpop, hplt]
    have heq : updateHeap H s item = .ok
        { s with heap := List.orderedInsert pairLe (est, item) rest,
                 topk := eraseKey s.topk m.2 ++ [(item, est)] } := by
      simp only [updateHeap, hest, exceptOk_bind, hnew]
      rw [if_neg hnl]
      simp only [hheap]
      rw [if_neg (not_le.mpr hlt)]
      simp only [hpp, hlkm]
      rfl
    refine ⟨heq, ⟨?_, ?_⟩, ⟨?_, ?_⟩, ?_⟩
    · exact (List.mem_orderedInsert _).mpr (Or.inl rfl)
    · have h1 : lookupA (eraseKey s.topk m.2) item = none :=
        lookupA_eq_none.mpr fun hmem => hitem_notin (eraseKey_keys_subset hmem)
      rw [lookupA_append_none h1]
      simp [lookupA]
    · intro hmem
      rcases (List.mem_orderedInsert _).mp hmem with heq2 | hmem2
      · rw [heq2] at hm2mem
        exact hitem_notin hm2mem
      · have hnds : (s.heap.map Prod.snd).Nodup := heap_snd_nodup hnd hperm
        rw [hheap, List.map_cons] at hnds
        obtain ⟨hm2, -⟩ := List.nodup_cons.mp hnds
        exact hm2 (List.mem_map.mpr ⟨m, hmem2, rfl⟩)
    · have hperm2 := eraseKey_perm_of_lookup hlkm
      have hkeys2 : List.Perm (s.topk.map Prod.fst)
          (m.2 :: (eraseKey s.topk m.2).map Prod.fst) := by
        have := hperm2.map Prod.fst
        simpa using this
      obtain ⟨hm2ni, -⟩ := List.nodup_cons.mp (hkeys2.nodup_iff.mp hnd)
      rw [lookupA_append_none (lookupA_eq_none.mpr hm2ni)]
      simp [lookupA, hne]
    · rw [List.orderedInsert_length, hheap]
      simp

/-- C6 witness: a full capacity-1 tracker holding item 3 with estimate 5;
updating untracked item 4 (fresh estimate 7 > 5) evicts item 3 from both
structures and inserts item 4 into both. -/
theorem cms_C6_witness :
    updateHeap H0 (⟨1, 1, 1, 5, [(5, 3)], [(3, 5)], [[7]]⟩ :
        CountMinSketch Nat) 4 =
      .ok ⟨1, 1, 1, 5, [(7, 4)], [(4, 7)], [[7]]⟩ ∧
    ((7, 4) ∈ [((7 : Int), (4 : Nat))] ∧ lookupA [(4, 7)] 4 = some 7) ∧
    ((5, 3) ∉ [((7 : Int), (4 : Nat))] ∧ lookupA [(4, 7)] 3 = none) ∧
    [((7 : Int), (4 : Nat))].length = 1 :=
  (cms_C6_eviction_at_capacity Nat H0 ⟨1, 1, 1, 5, [(5, 3)], [(3, 5)], [[7]]⟩ 4
    (5, 3) [] 7
    ⟨List.sorted_singleton _, by decide, List.Perm.refl _, by decide⟩
    rfl rfl rfl rfl).2.2 (by decide)

end CmsSpec
